import Mathlib

/-!
Verification of the KeySearch coordinator/worker core.

Python dicts are modelled as insertion-ordered association lists
(`List (String × α)`); dict lookup, dict assignment and membership are
`getVal`, `setVal` and `Option.isSome` on `getVal`.  JSON values arriving
from a worker are modelled by the inductives `FVal` (a frequency slot:
an integer or something else) and `PVal` (a term slot: a dict or
something else), so that the runtime `isinstance` checks of the source
become pattern matches.
-/

namespace KeySearch

/-- Dict lookup: `m[k]` as an `Option`, first binding wins (dict keys are
unique in Python, so at most one binding exists in faithful states). -/
def getVal {α : Type} : List (String × α) → String → Option α
  | [], _ => none
  | (k, v) :: rest, key => if k = key then some v else getVal rest key

/-- Dict assignment `m[k] = v`: updates the binding in place if the key is
present (keeping insertion order, as CPython does), otherwise appends. -/
def setVal {α : Type} : List (String × α) → String → α → List (String × α)
  | [], key, v => [(key, v)]
  | (k, w) :: rest, key, v =>
      if k = key then (k, v) :: rest else (k, w) :: setVal rest key v

theorem getVal_setVal_self {α : Type} (m : List (String × α)) (k : String) (v : α) :
    getVal (setVal m k v) k = some v := by
  induction m with
  | nil => simp [setVal, getVal]
  | cons hd tl ih =>
      obtain ⟨k', w⟩ := hd
      by_cases h : k' = k
      · simp [setVal, getVal, h]
      · simp [setVal, getVal, h, ih]

theorem getVal_setVal_ne {α : Type} (m : List (String × α)) (k k' : String) (v : α)
    (h : k' ≠ k) : getVal (setVal m k v) k' = getVal m k' := by
  induction m with
  | nil => simp [setVal, getVal, Ne.symm h]
  | cons hd tl ih =>
      obtain ⟨k0, w⟩ := hd
      by_cases h0 : k0 = k
      · subst h0
        simp [setVal, getVal, Ne.symm h]
      · simp only [setVal, h0, if_false]
        by_cases h1 : k0 = k'
        · simp [getVal, h1]
        · simp [getVal, h1, ih]

/-- The frequency slot of a term entry in a partial index record, as it
arrives from JSON: either an `int` (Python `isinstance(·, int)`) or some
other value. -/
inductive FVal : Type where
  | int (f : Int)
  | other
deriving DecidableEq, Repr

/-- The value attached to a term in a partial index record: either a dict
mapping doc ids to frequency slots, or some other (malformed) value. -/
inductive PVal : Type where
  | dict (m : List (String × FVal))
  | other
deriving DecidableEq, Repr

/-- The global inverted index: `{term: {doc_id: frequency}}`. -/
abbrev GIndex : Type := List (String × List (String × Int))

/-- `global_index[term][doc_id]`, as an `Option`. -/
def gLookup (g : GIndex) (term docId : String) : Option Int :=
  match getVal g term with
  | none => none
  | some m => getVal m docId

/-- The write performed by `merge_partial_index` for one valid term:
`if term not in global_index: global_index[term] = {}` followed by
`global_index[term][doc_id] = frequency` (fuse.py lines 63-69). -/
def gSet (g : GIndex) (term docId : String) (f : Int) : GIndex :=
  let g1 := if (getVal g term).isSome then g else setVal g term []
  match getVal g1 term with
  | some m => setVal g1 term (setVal m docId f)
  | none => g1

/-- One iteration of the `for term, doc_freq_map in partial.items()` loop of
`merge_partial_index` (fuse.py lines 44-69): skip non-dict values, skip
when `doc_id_processed` is not a key of the inner dict, skip non-int or
negative frequencies, otherwise write through `gSet`. -/
def fuseStep (docId : String) (g : GIndex) (tv : String × PVal) : GIndex :=
  match tv.2 with
  | .other => g
  | .dict doc_freq_map =>
    match getVal doc_freq_map docId with
    | none => g
    | some .other => g
    | some (.int frequency) =>
        if frequency < 0 then g else gSet g tv.1 docId frequency

/-- `merge_partial_index(global_index, partial_index_from_worker,
doc_id_processed)` from fuse.py: fold the per-term step over the record's
items in order.  The mutex argument of the source serialises concurrent
calls and does not affect the sequential result, so it is not modelled. -/
def merge_partial_index (g : GIndex)
    (pidx : List (String × PVal)) (docId : String) : GIndex :=
  pidx.foldl (fuseStep docId) g

/-- The frequency a term entry would contribute for `docId`, if it passes
all three validation checks of `merge_partial_index`; `none` if the entry
is skipped. -/
def validFreq (v : PVal) (docId : String) : Option Int :=
  match v with
  | .other => none
  | .dict doc_freq_map =>
    match getVal doc_freq_map docId with
    | none => none
    | some .other => none
    | some (.int frequency) =>
        if frequency < 0 then none else some frequency

theorem fuseStep_eq_validFreq (docId : String) (g : GIndex) (t : String) (v : PVal) :
    fuseStep docId g (t, v) =
      match validFreq v docId with
      | some f => gSet g t docId f
      | none => g := by
  cases v with
  | other => rfl
  | dict m =>
      simp only [fuseStep, validFreq]
      cases getVal m docId with
      | none => rfl
      | some fv =>
          cases fv with
          | other => rfl
          | int f =>
              by_cases h : f < 0 <;> simp [h]

theorem gLookup_gSet (g : GIndex) (term docId t d : String) (f : Int) :
    gLookup (gSet g term docId f) t d =
      if t = term ∧ d = docId then some f else gLookup g t d := by
  unfold gSet gLookup
  cases hm : getVal g term with
  | some m =>
      simp only [hm, Option.isSome_some, if_true]
      by_cases ht : t = term
      · subst ht
        rw [getVal_setVal_self]
        by_cases hd : d = docId
        · subst hd
          simp [getVal_setVal_self]
        · simp [hd, getVal_setVal_ne _ _ _ _ hd, hm]
      · simp [ht, getVal_setVal_ne _ _ _ _ ht]
  | none =>
      simp only [hm, Option.isSome_none, Bool.false_eq_true, if_false]
      rw [getVal_setVal_self]
      by_cases ht : t = term
      · subst ht
        rw [getVal_setVal_self]
        by_cases hd : d = docId
        · subst hd
          simp [setVal, getVal, hm]
        · simp [hd, Ne.symm hd, setVal, getVal, hm]
      · simp only [ht, false_and, if_false]
        rw [getVal_setVal_ne _ _ _ _ ht, getVal_setVal_ne _ _ _ _ ht]

/-- Accumulator step for `lastWrite`: a later entry for the same term
overrides an earlier one only if it passes validation (skipped entries
leave the accumulator alone, like the `continue` branches of the loop). -/
def writeStep (docId t : String) (acc : Option Int) (tv : String × PVal) : Option Int :=
  if tv.1 = t then
    match validFreq tv.2 docId with
    | some f => some f
    | none => acc
  else acc

/-- `lastWriteFrom acc pidx docId t`: the last validated frequency that the
loop of `merge_partial_index` writes for `(t, docId)` while scanning
`pidx`, starting from a previous write `acc`. -/
def lastWriteFrom (acc : Option Int) (pidx : List (String × PVal))
    (docId t : String) : Option Int :=
  pidx.foldl (writeStep docId t) acc

/-- The last validated frequency that a record writes for `(t, docId)`,
if any. -/
def lastWrite (pidx : List (String × PVal)) (docId t : String) : Option Int :=
  lastWriteFrom none pidx docId t

theorem lastWriteFrom_eq_or (pidx : List (String × PVal)) (acc : Option Int)
    (docId t : String) :
    lastWriteFrom acc pidx docId t = (lastWrite pidx docId t).or acc := by
  induction pidx generalizing acc with
  | nil => simp [lastWriteFrom, lastWrite]
  | cons tv p' ih =>
      show lastWriteFrom (writeStep docId t acc tv) p' docId t = _
      rw [ih]
      have h2 : lastWrite (tv :: p') docId t
          = (lastWrite p' docId t).or (writeStep docId t none tv) := by
        show lastWriteFrom (writeStep docId t none tv) p' docId t = _
        rw [ih]
      rw [h2]
      cases hlw : lastWrite p' docId t with
      | some f => simp [Option.or]
      | none =>
          simp only [Option.or]
          unfold writeStep
          by_cases h : tv.1 = t
          · simp only [h, if_true]
            cases validFreq tv.2 docId <;> simp [Option.or]
          · simp [h, Option.or]

theorem lastWrite_cons (tv : String × PVal) (pidx : List (String × PVal))
    (docId t : String) :
    lastWrite (tv :: pidx) docId t
      = (lastWrite pidx docId t).or (writeStep docId t none tv) := by
  show lastWriteFrom (writeStep docId t none tv) pidx docId t = _
  rw [lastWriteFrom_eq_or]

/-- Master characterisation of the Fuser: the merged index, read at any
cell `(t, d)`, equals the record's last validated write when `d` is the
processed document and the record writes `t`, and the old value
otherwise. -/
theorem gLookup_merge (pidx : List (String × PVal)) (g : GIndex)
    (docId t d : String) :
    gLookup (merge_partial_index g pidx docId) t d =
      if d = docId then
        match lastWrite pidx docId t with
        | some f => some f
        | none => gLookup g t d
      else gLookup g t d := by
  induction pidx generalizing g with
  | nil =>
      simp only [merge_partial_index, List.foldl_nil, lastWrite, lastWriteFrom,
        List.foldl_nil]
      by_cases hd : d = docId <;> simp [hd]
  | cons tv p' ih =>
      obtain ⟨t0, v0⟩ := tv
      show gLookup (merge_partial_index (fuseStep docId g (t0, v0)) p' docId) t d = _
      rw [ih, lastWrite_cons]
      have hstep : gLookup (fuseStep docId g (t0, v0)) t d =
          match validFreq v0 docId with
          | some f => if t = t0 ∧ d = docId then some f else gLookup g t d
          | none => gLookup g t d := by
        rw [fuseStep_eq_validFreq]
        cases validFreq v0 docId with
        | some f => exact gLookup_gSet g t0 docId t d f
        | none => rfl
      by_cases hd : d = docId
      · simp only [if_pos hd]
        rw [hstep]
        cases hlw : lastWrite p' docId t with
        | some f => simp [Option.or]
        | none =>
            simp only [Option.or]
            unfold writeStep
            by_cases h0 : t0 = t
            · simp only [h0, if_true]
              cases validFreq v0 docId with
              | some f => simp [h0.symm, hd]
              | none => simp
            · have h0' : ¬ (t = t0) := fun hh => h0 hh.symm
              simp only [h0, if_false]
              cases validFreq v0 docId with
              | some f => simp [h0']
              | none => simp
      · simp only [if_neg hd]
        rw [hstep]
        cases validFreq v0 docId with
        | some f => simp [hd]
        | none => rfl

theorem lastWrite_of_not_mem (pidx : List (String × PVal)) (docId t : String)
    (h : t ∉ pidx.map Prod.fst) : lastWrite pidx docId t = none := by
  induction pidx with
  | nil => rfl
  | cons tv p' ih =>
      rw [lastWrite_cons]
      have h1 : tv.1 ≠ t := by
        intro hh
        exact h (by simp [hh.symm])
      have h2 : t ∉ p'.map Prod.fst := fun hh => h (by simp [hh])
      rw [ih h2]
      simp [writeStep, h1, Option.or]

theorem lastWrite_of_mem_nodup (pidx : List (String × PVal)) (docId t : String)
    (v : PVal) (hnd : (pidx.map Prod.fst).Nodup) (hmem : (t, v) ∈ pidx) :
    lastWrite pidx docId t = validFreq v docId := by
  induction pidx with
  | nil => cases hmem
  | cons tv p' ih =>
      rw [lastWrite_cons]
      rw [List.map_cons, List.nodup_cons] at hnd
      rcases List.mem_cons.mp hmem with heq | htail
      · have ht : tv.1 = t := by rw [← heq]
        have hv : tv.2 = v := by rw [← heq]
        have hnm : t ∉ p'.map Prod.fst := by
          rw [← ht]; exact hnd.1
        rw [lastWrite_of_not_mem p' docId t hnm]
        simp only [writeStep, ht, if_true, hv, Option.or]
        cases validFreq v docId <;> simp
      · have ht : t ∈ p'.map Prod.fst :=
          List.mem_map.mpr ⟨(t, v), htail, rfl⟩
        have h1 : tv.1 ≠ t := fun hh => hnd.1 (hh ▸ ht)
        rw [ih hnd.2 htail]
        simp only [writeStep, h1, if_false]
        cases validFreq v docId <;> simp [Option.or]

/-- A partial-index record as handed to the Fuser: the `partial_index`
dict together with the `doc_id_processed` it pertains to. -/
abbrev FuseRecord : Type := List (String × PVal) × String

/-- Folding a sequence of records into the global index, in order (fuse.py
`merge_partial_index` invoked once per record by the results listener). -/
def mergeAll (g : GIndex) (rs : List FuseRecord) : GIndex :=
  rs.foldl (fun acc r => merge_partial_index acc r.1 r.2) g

/-- Spec §3 well-formedness of a record: every inner map has exactly one
entry, keyed by the outer doc id, with a non-negative integer frequency. -/
def isWellFormed (r : FuseRecord) : Bool :=
  r.1.all (fun tv =>
    match tv.2 with
    | PVal.dict [(d0, FVal.int f)] => d0 == r.2 && decide (0 ≤ f)
    | _ => false)

/-- Extensional equality of global indexes: Python dict `==` ignores
insertion order, so two indexes are the same when every cell agrees. -/
def GEquiv (g g' : GIndex) : Prop := ∀ t d, gLookup g t d = gLookup g' t d

theorem merge_congr (a b : GIndex) (pidx : List (String × PVal)) (docId : String)
    (h : GEquiv a b) :
    GEquiv (merge_partial_index a pidx docId) (merge_partial_index b pidx docId) := by
  intro t d
  rw [gLookup_merge, gLookup_merge]
  by_cases hd : d = docId
  · rw [if_pos hd, if_pos hd]
    cases lastWrite pidx docId t with
    | some f => rfl
    | none => exact h t d
  · rw [if_neg hd, if_neg hd]
    exact h t d

theorem mergeAll_congr (rs : List FuseRecord) (a b : GIndex) (h : GEquiv a b) :
    GEquiv (mergeAll a rs) (mergeAll b rs) := by
  induction rs generalizing a b with
  | nil => exact h
  | cons r rs' ih =>
      exact ih (merge_partial_index a r.1 r.2) (merge_partial_index b r.1 r.2)
        (merge_congr a b r.1 r.2 h)

/-- Two Fuser calls for different documents commute (extensionally): they
write disjoint sets of `(term, doc)` cells. -/
theorem merge_swap (g : GIndex) (p1 : List (String × PVal)) (d1 : String)
    (p2 : List (String × PVal)) (d2 : String) (hne : d1 ≠ d2) :
    GEquiv (merge_partial_index (merge_partial_index g p1 d1) p2 d2)
      (merge_partial_index (merge_partial_index g p2 d2) p1 d1) := by
  intro t d
  simp only [gLookup_merge]
  by_cases h2 : d = d2
  · have h1 : d ≠ d1 := fun hh => hne (hh.symm.trans h2)
    simp only [if_pos h2, if_neg h1]
  · by_cases h1 : d = d1
    · simp only [if_pos h1, if_neg h2]
    · simp only [if_neg h1, if_neg h2]

theorem mergeAll_perm (rs1 rs2 : List FuseRecord) (h : rs1.Perm rs2) :
    (rs1.map Prod.snd).Nodup → ∀ g, GEquiv (mergeAll g rs1) (mergeAll g rs2) := by
  induction h with
  | nil => exact fun _ g t d => rfl
  | cons x hp ih =>
      intro hnd g
      rw [List.map_cons, List.nodup_cons] at hnd
      exact ih hnd.2 (merge_partial_index g x.1 x.2)
  | swap x y l =>
      intro hnd g
      have hne : y.2 ≠ x.2 := by
        simp only [List.map_cons, List.nodup_cons, List.mem_cons] at hnd
        exact fun hh => hnd.1 (Or.inl hh)
      exact mergeAll_congr l _ _ (merge_swap g y.1 y.2 x.1 x.2 hne)
  | trans hp1 hp2 ih1 ih2 =>
      intro hnd g t d
      have hnd2 := (hp1.map Prod.snd).nodup_iff.mp hnd
      exact (ih1 hnd g t d).trans (ih2 hnd2 g t d)

/-- C1: for every call to the Fuser with a partial index and a doc id,
every term whose inner map is a dict containing the doc id with a
non-negative integer frequency `f` ends up with
`global_index[term][doc_id] = f` (the inner map created if absent, any
previous frequency overwritten), and every cell `(t', d')` not written by
this rule is unchanged. -/
theorem merge_partial_index_overwrites
    (g : GIndex) (pidx : List (String × PVal)) (docId term t' d' : String)
    (inner : List (String × FVal)) (f : Int)
    (hnd : (pidx.map Prod.fst).Nodup)
    (hmem : (term, PVal.dict inner) ∈ pidx)
    (hf : getVal inner docId = some (FVal.int f))
    (hge : 0 ≤ f)
    (hother : d' ≠ docId ∨ lastWrite pidx docId t' = none) :
    gLookup (merge_partial_index g pidx docId) term docId = some f
      ∧ gLookup (merge_partial_index g pidx docId) t' d' = gLookup g t' d' := by
  have hvf : validFreq (PVal.dict inner) docId = some f := by
    simp [validFreq, hf, if_neg (not_lt.mpr hge)]
  constructor
  · rw [gLookup_merge, if_pos rfl,
      lastWrite_of_mem_nodup pidx docId term _ hnd hmem, hvf]
  · rw [gLookup_merge]
    rcases hother with h | h
    · rw [if_neg h]
    · by_cases hd : d' = docId
      · rw [if_pos hd, h]
      · rw [if_neg hd]

theorem merge_partial_index_overwrites_witness :
    (([("old", PVal.dict [("d1.txt", FVal.int 3)]),
       ("new", PVal.dict [("d1.txt", FVal.int 2)])].map
        (Prod.fst (α := String) (β := PVal))).Nodup
      ∧ ("old", PVal.dict [("d1.txt", FVal.int 3)])
          ∈ [("old", PVal.dict [("d1.txt", FVal.int 3)]),
             ("new", PVal.dict [("d1.txt", FVal.int 2)])]
      ∧ getVal [("d1.txt", FVal.int 3)] "d1.txt" = some (FVal.int 3)
      ∧ (0 : Int) ≤ 3
      ∧ ("d9.txt" ≠ "d1.txt"
          ∨ lastWrite [("old", PVal.dict [("d1.txt", FVal.int 3)]),
              ("new", PVal.dict [("d1.txt", FVal.int 2)])] "d1.txt" "old" = none))
    ∧ gLookup (merge_partial_index [("old", [("d1.txt", 7), ("d9.txt", 5)])]
        [("old", PVal.dict [("d1.txt", FVal.int 3)]),
         ("new", PVal.dict [("d1.txt", FVal.int 2)])] "d1.txt") "old" "d1.txt" = some 3
    ∧ gLookup (merge_partial_index [("old", [("d1.txt", 7), ("d9.txt", 5)])]
        [("old", PVal.dict [("d1.txt", FVal.int 3)]),
         ("new", PVal.dict [("d1.txt", FVal.int 2)])] "d1.txt") "old" "d9.txt"
      = gLookup [("old", [("d1.txt", 7), ("d9.txt", 5)])] "old" "d9.txt" :=
  ⟨⟨by decide, by decide, by decide, by decide, Or.inl (by decide)⟩,
    merge_partial_index_overwrites
      [("old", [("d1.txt", 7), ("d9.txt", 5)])]
      [("old", PVal.dict [("d1.txt", FVal.int 3)]),
       ("new", PVal.dict [("d1.txt", FVal.int 2)])]
      "d1.txt" "old" "old" "d9.txt" [("d1.txt", FVal.int 3)] 3
      (by decide) (by decide) (by decide) (by decide) (Or.inl (by decide))⟩

/-- C2: every term of the partial whose value fails validation (not a
dict, missing the outer doc id, or a non-int/negative frequency — exactly
the cases where `validFreq` is `none`) is skipped, leaving the global
index unchanged at that term, while any other term of the same record
that passes validation still fuses normally. -/
theorem merge_partial_index_skips_invalid
    (g : GIndex) (pidx : List (String × PVal)) (docId term d t2 : String)
    (v v2 : PVal) (f2 : Int)
    (hnd : (pidx.map Prod.fst).Nodup)
    (hmem : (term, v) ∈ pidx)
    (hinv : validFreq v docId = none)
    (hmem2 : (t2, v2) ∈ pidx)
    (hval2 : validFreq v2 docId = some f2) :
    gLookup (merge_partial_index g pidx docId) term d = gLookup g term d
      ∧ gLookup (merge_partial_index g pidx docId) t2 docId = some f2 := by
  constructor
  · rw [gLookup_merge]
    by_cases hd : d = docId
    · rw [if_pos hd, lastWrite_of_mem_nodup pidx docId term v hnd hmem, hinv]
    · rw [if_neg hd]
  · rw [gLookup_merge, if_pos rfl,
      lastWrite_of_mem_nodup pidx docId t2 v2 hnd hmem2, hval2]

theorem merge_partial_index_skips_invalid_witness :
    (([("bad", PVal.dict [("dX.txt", FVal.int 4)]),
       ("good", PVal.dict [("d1.txt", FVal.int 5)])].map
        (Prod.fst (α := String) (β := PVal))).Nodup
      ∧ ("bad", PVal.dict [("dX.txt", FVal.int 4)])
          ∈ [("bad", PVal.dict [("dX.txt", FVal.int 4)]),
             ("good", PVal.dict [("d1.txt", FVal.int 5)])]
      ∧ validFreq (PVal.dict [("dX.txt", FVal.int 4)]) "d1.txt" = none
      ∧ ("good", PVal.dict [("d1.txt", FVal.int 5)])
          ∈ [("bad", PVal.dict [("dX.txt", FVal.int 4)]),
             ("good", PVal.dict [("d1.txt", FVal.int 5)])]
      ∧ validFreq (PVal.dict [("d1.txt", FVal.int 5)]) "d1.txt" = some 5)
    ∧ gLookup (merge_partial_index [("bad", [("d1.txt", 9)])]
        [("bad", PVal.dict [("dX.txt", FVal.int 4)]),
         ("good", PVal.dict [("d1.txt", FVal.int 5)])] "d1.txt") "bad" "d1.txt"
      = gLookup [("bad", [("d1.txt", 9)])] "bad" "d1.txt"
    ∧ gLookup (merge_partial_index [("bad", [("d1.txt", 9)])]
        [("bad", PVal.dict [("dX.txt", FVal.int 4)]),
         ("good", PVal.dict [("d1.txt", FVal.int 5)])] "d1.txt") "good" "d1.txt"
      = some 5 :=
  ⟨⟨by decide, by decide, by decide, by decide, by decide⟩,
    merge_partial_index_skips_invalid
      [("bad", [("d1.txt", 9)])]
      [("bad", PVal.dict [("dX.txt", FVal.int 4)]),
       ("good", PVal.dict [("d1.txt", FVal.int 5)])]
      "d1.txt" "bad" "d1.txt" "good"
      (PVal.dict [("dX.txt", FVal.int 4)]) (PVal.dict [("d1.txt", FVal.int 5)]) 5
      (by decide) (by decide) (by decide) (by decide) (by decide)⟩

/-- C3: fusion is commutative across documents — applying any permutation
of a sequence of well-formed records with pairwise-distinct doc ids,
starting from the same global index, yields the same resulting global
index (read at any cell). -/
theorem fusion_commutative (g : GIndex) (rs1 rs2 : List FuseRecord) (t d : String)
    (hperm : rs1.Perm rs2)
    (hnd : (rs1.map Prod.snd).Nodup)
    (_hwf : ∀ r ∈ rs1, isWellFormed r = true) :
    gLookup (mergeAll g rs1) t d = gLookup (mergeAll g rs2) t d :=
  mergeAll_perm rs1 rs2 hperm hnd g t d

theorem fusion_commutative_witness :
    ([([("cat", PVal.dict [("d2.txt", FVal.int 2)]),
        ("dog", PVal.dict [("d2.txt", FVal.int 1)])], "d2.txt"),
      ([("dog", PVal.dict [("d3.txt", FVal.int 1)])], "d3.txt")].Perm
      [([("dog", PVal.dict [("d3.txt", FVal.int 1)])], "d3.txt"),
       ([("cat", PVal.dict [("d2.txt", FVal.int 2)]),
         ("dog", PVal.dict [("d2.txt", FVal.int 1)])], "d2.txt")]
      ∧ (([([("cat", PVal.dict [("d2.txt", FVal.int 2)]),
          ("dog", PVal.dict [("d2.txt", FVal.int 1)])], "d2.txt"),
        ([("dog", PVal.dict [("d3.txt", FVal.int 1)])], "d3.txt")].map
          (Prod.snd (α := List (String × PVal)) (β := String))).Nodup)
      ∧ (∀ r ∈ [([("cat", PVal.dict [("d2.txt", FVal.int 2)]),
          ("dog", PVal.dict [("d2.txt", FVal.int 1)])], "d2.txt"),
        ([("dog", PVal.dict [("d3.txt", FVal.int 1)])], "d3.txt")],
          isWellFormed r = true))
    ∧ gLookup (mergeAll []
        [([("cat", PVal.dict [("d2.txt", FVal.int 2)]),
           ("dog", PVal.dict [("d2.txt", FVal.int 1)])], "d2.txt"),
         ([("dog", PVal.dict [("d3.txt", FVal.int 1)])], "d3.txt")]) "dog" "d3.txt"
      = gLookup (mergeAll []
        [([("dog", PVal.dict [("d3.txt", FVal.int 1)])], "d3.txt"),
         ([("cat", PVal.dict [("d2.txt", FVal.int 2)]),
           ("dog", PVal.dict [("d2.txt", FVal.int 1)])], "d2.txt")]) "dog" "d3.txt" :=
  ⟨⟨List.Perm.swap _ _ [], by decide, by decide⟩,
    fusion_commutative [] _ _ "dog" "d3.txt" (List.Perm.swap _ _ [])
      (by decide) (by decide)⟩

/-- A candidate row built by `get_least_loaded_worker` (task_queue.py
lines 62-97): `(worker_id_from_key, queue_length, load_metric)` with
`load_metric = cpu + ram`.  The float loads are modelled as rationals;
only their ordering matters to the selection. -/
structure WorkerCand where
  worker_id : String
  queue_length : Nat
  load_metric : ℚ
deriving DecidableEq, Repr

/-- The comparison `candidate_workers.sort(key=lambda x: (x[1], x[2]))`
induces: lexicographic `≤` on `(queue_length, load_metric)`.  The worker
id does not participate in the key. -/
def candLE (a b : WorkerCand) : Prop :=
  a.queue_length < b.queue_length
    ∨ (a.queue_length = b.queue_length ∧ a.load_metric ≤ b.load_metric)

instance : DecidableRel candLE := fun a b => by
  unfold candLE
  infer_instance

/-- `get_least_loaded_worker` (task_queue.py lines 99-108) applied to the
already-built candidate list: Python's `list.sort` is a stable sort on
the key `(queue_length, load_metric)` (modelled by `insertionSort`, which
is stable for a total preorder), and the head's worker id is returned;
`None` when there are no candidates. -/
def get_least_loaded_worker (cands : List WorkerCand) : Option String :=
  (List.insertionSort candLE cands).head?.map WorkerCand.worker_id

/-- Under the stated hypotheses, the head of the stable sort is the first
candidate, in enumeration order, whose key `(queue_length, load_metric)`
is minimal. -/
theorem sortCands_head (l1 l2 : List WorkerCand) (c : WorkerCand)
    (hmin : ∀ x ∈ l1 ++ c :: l2, candLE c x)
    (hfirst : ∀ x ∈ l1, ¬ candLE x c) :
    (List.insertionSort candLE (l1 ++ c :: l2)).head? = some c := by
  induction l1 with
  | nil =>
      rw [List.nil_append]
      show (List.orderedInsert candLE c (List.insertionSort candLE l2)).head? = some c
      cases hs : List.insertionSort candLE l2 with
      | nil => rfl
      | cons b m =>
          have hb : b ∈ l2 := (List.mem_insertionSort candLE).mp
            (hs ▸ List.mem_cons_self b m)
          have hcb : candLE c b := hmin b (by simp [hb])
          rw [List.orderedInsert_of_le candLE m hcb]
          rfl
  | cons x l1' ih =>
      have hmin' : ∀ y ∈ l1' ++ c :: l2, candLE c y :=
        fun y hy => hmin y (List.mem_cons_of_mem x hy)
      have hfirst' : ∀ y ∈ l1', ¬ candLE y c :=
        fun y hy => hfirst y (List.mem_cons_of_mem x hy)
      have hh := ih hmin' hfirst'
      rw [List.cons_append]
      show (List.orderedInsert candLE x
        (List.insertionSort candLE (l1' ++ c :: l2))).head? = some c
      cases hs : List.insertionSort candLE (l1' ++ c :: l2) with
      | nil => rw [hs] at hh; exact absurd hh (by simp)
      | cons b m =>
          rw [hs] at hh
          have hbc : b = c := by simpa using hh
          have hxc : ¬ candLE x c := hfirst x (List.mem_cons_self x l1')
          rw [hbc]
          simp [List.orderedInsert, hxc]

/-- C4 counterexample: two candidates with identical
`(queue_length, cpu+ram)` are NOT tie-broken by lexicographic worker id;
the stable sort preserves enumeration order, so the same set of worker
states enumerated in two different orders selects two different workers
("b" is selected although "a" < "b" lexicographically). -/
theorem dispatcher_tiebreak_counterexample :
    get_least_loaded_worker
        [⟨"b", 0, 2⟩, ⟨"a", 0, 2⟩] = some "b"
      ∧ get_least_loaded_worker
        [⟨"a", 0, 2⟩, ⟨"b", 0, 2⟩] = some "a"
      ∧ (some "b" : Option String) ≠ some "a" :=
  ⟨by decide, by decide, by decide⟩

/-- C4 amended: the dispatcher sorts candidates by queue length
ascending, then by cpu+ram ascending; when candidates have identical
keys the tie is resolved by the stable sort, i.e. by the candidates'
enumeration order (not by worker id), so the selected worker is the first
candidate, in enumeration order, among those with a minimal key —
deterministic for a fixed candidate sequence. -/
theorem get_least_loaded_worker_first_minimal (l1 l2 : List WorkerCand)
    (c : WorkerCand)
    (hmin : ∀ x ∈ l1 ++ c :: l2, candLE c x)
    (hfirst : ∀ x ∈ l1, ¬ candLE x c) :
    get_least_loaded_worker (l1 ++ c :: l2) = some c.worker_id := by
  unfold get_least_loaded_worker
  rw [sortCands_head l1 l2 c hmin hfirst]
  rfl

theorem get_least_loaded_worker_first_minimal_witness :
    ((∀ x ∈ [(⟨"b", 0, 5⟩ : WorkerCand)] ++ (⟨"a", 0, 3⟩ : WorkerCand) :: [],
        candLE ⟨"a", 0, 3⟩ x)
      ∧ (∀ x ∈ [(⟨"b", 0, 5⟩ : WorkerCand)], ¬ candLE x ⟨"a", 0, 3⟩))
    ∧ get_least_loaded_worker
        ([(⟨"b", 0, 5⟩ : WorkerCand)] ++ (⟨"a", 0, 3⟩ : WorkerCand) :: [])
        = some (WorkerCand.worker_id ⟨"a", 0, 3⟩) :=
  ⟨⟨by decide, by decide⟩,
    get_least_loaded_worker_first_minimal [⟨"b", 0, 5⟩] [] ⟨"a", 0, 3⟩
      (by decide) (by decide)⟩

/-- The comparison used by `sorted(doc_freq_map.items(), key=lambda item:
item[1], reverse=True)` in the search endpoint: frequency descending. -/
def freqDesc (a b : String × Int) : Prop := b.2 ≤ a.2

instance : DecidableRel freqDesc := fun a b => by
  unfold freqDesc
  infer_instance

instance : IsTotal (String × Int) freqDesc :=
  ⟨fun a b => le_total b.2 a.2⟩

instance : IsTrans (String × Int) freqDesc :=
  ⟨fun _ _ _ hab hbc => le_trans hbc hab⟩

/-- The docs list built by `search_endpoint` (main.py lines 216-228),
parameterised by the stems produced by `normalize_text` (the NLTK
pipeline is external to the core): no stems ⇒ `[]`; otherwise look up the
first stem and return its entries sorted by frequency descending
(Python's `sorted` is stable; `insertionSort` realises it), or `[]` when
the stem is absent. -/
def search_endpoint_docs (stems : List String) (g : GIndex) :
    List (String × Int) :=
  match stems with
  | [] => []
  | s :: _ =>
    match getVal g s with
    | some doc_freq_map => List.insertionSort freqDesc doc_freq_map
    | none => []

/-- C5: with at least one stem, the returned docs list is exactly the
entries of the global index at the first stem (as a multiset), sorted so
that frequencies are monotonically non-increasing; with no stems, or
when the stem is absent (so the index holds no entry list and `getD`
yields `[]`), the result is empty. -/
theorem search_endpoint_docs_correct (g : GIndex) (s : String)
    (rest : List String) :
    search_endpoint_docs [] g = []
      ∧ (search_endpoint_docs (s :: rest) g).Perm ((getVal g s).getD [])
      ∧ List.Sorted freqDesc (search_endpoint_docs (s :: rest) g) := by
  refine ⟨rfl, ?_, ?_⟩
  · cases hv : getVal g s with
    | none => simp [search_endpoint_docs, hv]
    | some m =>
        simp only [search_endpoint_docs, hv, Option.getD_some]
        exact List.perm_insertionSort freqDesc m
  · cases hv : getVal g s with
    | none => simp [search_endpoint_docs, hv]
    | some m =>
        simp only [search_endpoint_docs, hv]
        exact List.sorted_insertionSort freqDesc m

/-- `dispatched_docs_pending_results.add(doc_id)` on a Python set,
modelled on a duplicate-free list: append only when absent. -/
def setAdd (s : List String) (x : String) : List String :=
  if x ∈ s then s else s ++ [x]

/-- `dispatched_docs_pending_results.remove(doc_id)` / discard from a
Python set: drop every occurrence. -/
def setRemove (s : List String) (x : String) : List String :=
  s.filter (fun y => y != x)

/-- The pending-set effect of dispatching one file in
`trigger_local_indexing_endpoint` (main.py lines 188-208): add `doc_id`
under the mutex, call `push_task_to_queue`, and on a `None` result
(no worker / broker error) remove `doc_id` again if present. -/
def trigger_dispatch_one (pending : List String) (docId : String)
    (pushResult : Option Nat) : List String :=
  let p1 := setAdd pending docId
  match pushResult with
  | some _ => p1
  | none => if docId ∈ p1 then setRemove p1 docId else p1

theorem mem_setAdd (s : List String) (x y : String) :
    y ∈ setAdd s x ↔ y ∈ s ∨ y = x := by
  unfold setAdd
  by_cases h : x ∈ s
  · simp only [h, if_true]
    constructor
    · exact fun hy => Or.inl hy
    · rintro (hy | hy)
      · exact hy
      · exact hy ▸ h
  · simp [h]

theorem not_mem_setRemove (s : List String) (x : String) :
    x ∉ setRemove s x := by
  simp [setRemove, List.mem_filter]

theorem mem_setRemove_ne (s : List String) (x y : String) (h : y ≠ x) :
    y ∈ setRemove s x ↔ y ∈ s := by
  simp [setRemove, List.mem_filter, h]

/-- C6 counterexample: when the dispatched `doc_id` was already pending
(a permitted duplicate submission with the first task still in flight)
and the push fails, the failure path removes it, so the pending set is
not unchanged: from `{"d1.txt"}` it becomes `{}`. -/
theorem dispatch_fail_pending_counterexample :
    trigger_dispatch_one ["d1.txt"] "d1.txt" none = []
      ∧ "d1.txt" ∈ ["d1.txt"]
      ∧ "d1.txt" ∉ trigger_dispatch_one ["d1.txt"] "d1.txt" none :=
  ⟨by decide, by decide, by decide⟩

/-- C6 amended: `doc_id` is inserted before the push and removed again
when the push returns `None`, so after a failed dispatch the doc is not
in the pending set and every other doc's membership is unchanged; the
set itself is unchanged only when the doc was not already pending. -/
theorem dispatch_fail_removes_doc (pending : List String) (docId d : String)
    (hd : d ≠ docId) :
    docId ∉ trigger_dispatch_one pending docId none
      ∧ ((d ∈ trigger_dispatch_one pending docId none) ↔ d ∈ pending)
      ∧ (docId ∈ pending ∨ trigger_dispatch_one pending docId none = pending) := by
  have hmem : docId ∈ setAdd pending docId := (mem_setAdd pending docId docId).mpr (Or.inr rfl)
  have hrun : trigger_dispatch_one pending docId none
      = setRemove (setAdd pending docId) docId := by
    unfold trigger_dispatch_one
    simp [hmem]
  refine ⟨?_, ?_, ?_⟩
  · rw [hrun]
    exact not_mem_setRemove _ docId
  · rw [hrun, mem_setRemove_ne _ _ _ hd, mem_setAdd]
    constructor
    · rintro (hy | hy)
      · exact hy
      · exact absurd hy hd
    · exact fun hy => Or.inl hy
  · by_cases hp : docId ∈ pending
    · exact Or.inl hp
    · refine Or.inr ?_
      rw [hrun]
      unfold setAdd
      rw [if_neg hp]
      unfold setRemove
      rw [List.filter_append]
      have h1 : pending.filter (fun y => y != docId) = pending :=
        List.filter_eq_self.mpr fun a ha =>
          bne_iff_ne.mpr (fun hh => hp (hh ▸ ha))
      have h2 : List.filter (fun y => y != docId) [docId] = [] := by
        simp
      rw [h1, h2, List.append_nil]

theorem dispatch_fail_removes_doc_witness :
    ("a.txt" ≠ "d1.txt"
      ∧ "d1.txt" ∉ trigger_dispatch_one ["a.txt"] "d1.txt" none
      ∧ (("a.txt" ∈ trigger_dispatch_one ["a.txt"] "d1.txt" none)
          ↔ "a.txt" ∈ ["a.txt"])
      ∧ ("d1.txt" ∈ ["a.txt"]
          ∨ trigger_dispatch_one ["a.txt"] "d1.txt" none = ["a.txt"])) :=
  ⟨by decide, dispatch_fail_removes_doc ["a.txt"] "d1.txt" "a.txt" (by decide)⟩

/-- One iteration of the token loop of `calculate_tf` (worker.py lines
81-86): `if token not in tf_map: tf_map[token] = {doc_id: 0}` followed by
`tf_map[token][doc_id] += 1`.  The `none` fallbacks of the two lookups
are unreachable from states this loop produces (Python would raise
`KeyError` there): the token key is ensured just before the increment,
and every inner map it creates already holds `doc_id`. -/
def tfStep (docId : String) (tf_map : List (String × List (String × Nat)))
    (token : String) : List (String × List (String × Nat)) :=
  let tf1 := if (getVal tf_map token).isSome then tf_map
    else setVal tf_map token [(docId, 0)]
  match getVal tf1 token with
  | some m => setVal tf1 token (setVal m docId ((getVal m docId).getD 0 + 1))
  | none => tf1

/-- `calculate_tf(tokens, doc_id)` (worker.py lines 73-87): start from the
empty dict (also the early return for an empty token list) and run the
loop over the tokens in order. -/
def calculate_tf (tokens : List String) (docId : String) :
    List (String × List (String × Nat)) :=
  tokens.foldl (tfStep docId) []

/-- Adding `n` further occurrences to an inner frequency map. -/
def addCounts (m : List (String × Nat)) (docId : String) (n : Nat) :
    List (String × Nat) :=
  if n = 0 then m else setVal m docId ((getVal m docId).getD 0 + n)

theorem setVal_setVal {α : Type} (m : List (String × α)) (k : String) (v w : α) :
    setVal (setVal m k v) k w = setVal m k w := by
  induction m with
  | nil => simp [setVal]
  | cons hd tl ih =>
      obtain ⟨k0, u⟩ := hd
      by_cases h : k0 = k
      · simp [setVal, h]
      · simp [setVal, h, ih]

theorem getVal_tfStep_ne (docId : String) (tf : List (String × List (String × Nat)))
    (u t : String) (h : t ≠ u) :
    getVal (tfStep docId tf u) t = getVal tf t := by
  unfold tfStep
  by_cases hp : (getVal tf u).isSome
  · obtain ⟨m, hm⟩ := Option.isSome_iff_exists.mp hp
    simp only [hm, Option.isSome_some, if_true]
    rw [getVal_setVal_ne _ _ _ _ h]
  · have hn : getVal tf u = none := by
      cases hg : getVal tf u with
      | none => rfl
      | some m => rw [hg] at hp; simp at hp
    simp only [hn, Option.isSome_none, Bool.false_eq_true, if_false,
      getVal_setVal_self]
    rw [getVal_setVal_ne _ _ _ _ h, getVal_setVal_ne _ _ _ _ h]

theorem getVal_tfStep_self (docId : String) (tf : List (String × List (String × Nat)))
    (u : String) :
    getVal (tfStep docId tf u) u =
      match getVal tf u with
      | some m => some (setVal m docId ((getVal m docId).getD 0 + 1))
      | none => some [(docId, 1)] := by
  unfold tfStep
  cases hu : getVal tf u with
  | some m =>
      simp only [hu, Option.isSome_some, if_true, getVal_setVal_self]
  | none =>
      simp only [hu, Option.isSome_none, Bool.false_eq_true, if_false,
        getVal_setVal_self, setVal, getVal]
      simp

theorem addCounts_bump (m : List (String × Nat)) (docId : String) (n : Nat) :
    addCounts (setVal m docId ((getVal m docId).getD 0 + 1)) docId n
      = addCounts m docId (n + 1) := by
  unfold addCounts
  by_cases hn : n = 0
  · simp [hn]
  · simp only [hn, if_false, Nat.add_eq_zero, and_false, if_false,
      getVal_setVal_self, Option.getD_some, setVal_setVal]
    congr 1
    omega

theorem addCounts_singleton (docId : String) (a n : Nat) :
    addCounts [(docId, a)] docId n = [(docId, a + n)] := by
  unfold addCounts
  by_cases hn : n = 0
  · simp [hn]
  · simp [hn, getVal, setVal]

/-- Loop characterisation of `calculate_tf`: folding the tokens onto any
accumulator adds, at each key `t`, exactly `tokens.count t` occurrences
for `docId` (creating the singleton inner map on first occurrence). -/
theorem calculate_tf_loop (tokens : List String) (docId t : String)
    (acc : List (String × List (String × Nat))) :
    getVal (tokens.foldl (tfStep docId) acc) t =
      match getVal acc t with
      | some m => some (addCounts m docId (tokens.count t))
      | none => if 0 < tokens.count t
          then some [(docId, tokens.count t)] else none := by
  induction tokens generalizing acc with
  | nil =>
      simp only [List.foldl_nil, List.count_nil, addCounts, if_pos rfl]
      cases getVal acc t <;> simp
  | cons u ts ih =>
      rw [List.foldl_cons, ih (tfStep docId acc u)]
      by_cases hu : u = t
      · subst hu
        rw [getVal_tfStep_self]
        have hcount : (u :: ts).count u = ts.count u + 1 := by
          simp [List.count_cons]
        rw [hcount]
        cases ha : getVal acc u with
        | some m => simp [addCounts_bump]
        | none =>
            simp only []
            rw [addCounts_singleton]
            simp [Nat.add_comm]
      · have hcount : (u :: ts).count t = ts.count t := by
          simp [List.count_cons, Ne.symm hu]
        rw [getVal_tfStep_ne docId acc u t (Ne.symm hu), hcount]

/-- C7: for a non-empty token list, `calculate_tf` maps each distinct
token to an inner map with exactly one entry, keyed by the outer doc id,
whose value is that token's number of occurrences (positive exactly for
tokens that occur); no other terms appear. -/
theorem calculate_tf_correct (tokens : List String) (docId t : String)
    (_hne : tokens ≠ []) :
    getVal (calculate_tf tokens docId) t
        = (if t ∈ tokens then some [(docId, tokens.count t)] else none)
      ∧ (t ∈ tokens ↔ 0 < tokens.count t) := by
  constructor
  · rw [calculate_tf, calculate_tf_loop tokens docId t []]
    simp only [getVal]
    by_cases hm : t ∈ tokens
    · rw [if_pos hm, if_pos (List.count_pos_iff.mpr hm)]
    · rw [if_neg hm,
        if_neg (fun hc => hm (List.count_pos_iff.mp hc))]
  · exact ⟨fun hm => List.count_pos_iff.mpr hm, fun hc => List.count_pos_iff.mp hc⟩

theorem calculate_tf_correct_witness :
    ((["cat", "dog", "cat"] : List String) ≠ []
      ∧ getVal (calculate_tf ["cat", "dog", "cat"] "d2.txt") "cat"
          = (if "cat" ∈ ["cat", "dog", "cat"]
              then some [("d2.txt", (["cat", "dog", "cat"] : List String).count "cat")]
              else none)
      ∧ ("cat" ∈ ["cat", "dog", "cat"]
          ↔ 0 < (["cat", "dog", "cat"] : List String).count "cat")) :=
  ⟨by decide, calculate_tf_correct ["cat", "dog", "cat"] "d2.txt" "cat" (by decide)⟩

/-- The publication decision of `process_document_task` (worker.py lines
113-135), parameterised by the tokens produced by `normalize_text`:
`if not processed_tokens: return` publishes nothing (`none`); otherwise
the computed partial index is published on the results channel
(modelled by its `partial_index` payload). -/
def process_document_task (docId : String) (tokens : List String) :
    Option (List (String × List (String × Nat))) :=
  if tokens.isEmpty then none
  else some (calculate_tf tokens docId)

/-- The coordinator's pending set after one worker task outcome: a
published result reaches `handle_partial_index_message` (main.py lines
107-112), which removes the doc id from the pending set; when nothing is
published, no handler runs and the pending set is untouched. -/
def pendingAfterTask (pending : List String) (docId : String)
    (tokens : List String) : List String :=
  match process_document_task docId tokens with
  | none => pending
  | some _ => setRemove pending docId

/-- C8: a task whose content normalizes to an empty token list makes the
worker publish nothing, so the doc id stays in the coordinator's pending
set. -/
theorem empty_tokens_not_published (pending : List String) (docId : String)
    (hmem : docId ∈ pending) :
    process_document_task docId [] = none
      ∧ docId ∈ pendingAfterTask pending docId [] :=
  ⟨rfl, hmem⟩

theorem empty_tokens_not_published_witness :
    ("d1.txt" ∈ ["d1.txt", "d2.txt"]
      ∧ process_document_task "d1.txt" [] = none
      ∧ "d1.txt" ∈ pendingAfterTask ["d1.txt", "d2.txt"] "d1.txt" []) :=
  ⟨by decide, empty_tokens_not_published ["d1.txt", "d2.txt"] "d1.txt" (by decide)⟩

/-- The exceptions relevant to the worker-status endpoint:
`redis.exceptions.ConnectionError` is a subclass of
`redis.exceptions.RedisError`; anything else is a plain `Exception`. -/
inductive PyExc : Type where
  | redisConnError
  | redisOtherError
  | otherExc
deriving DecidableEq, Repr

/-- `except redis.exceptions.RedisError` catches both Redis exception
kinds, `ConnectionError` included. -/
def isRedisError : PyExc → Bool
  | .redisConnError => true
  | .redisOtherError => true
  | .otherExc => false

/-- `get_publisher_redis_client` (task_queue.py lines 33-48): on an
unreachable broker the `redis.Redis` constructor / `ping` raises
`ConnectionError` and the function re-raises it (line 47); it never
returns a falsy client. -/
def get_publisher_redis_client (brokerReachable : Bool) : Except PyExc Unit :=
  if brokerReachable then Except.ok () else Except.error PyExc.redisConnError

/-- The HTTP status of `get_workers_status_endpoint` (main.py lines
263-308): the `if not r_client: raise HTTPException(503)` guard is dead
code because the helper raises instead of returning `None`; the raised
`ConnectionError` is caught by `except redis.exceptions.RedisError` which
answers 500, and any other exception also answers 500.  A successful
enumeration answers 200. -/
def get_workers_status_endpoint (brokerReachable : Bool) : Nat :=
  match get_publisher_redis_client brokerReachable with
  | Except.ok _ => 200
  | Except.error e => if isRedisError e then 500 else 500

/-- C9: evaluation at the failing input — with the broker unreachable the
worker-status endpoint answers HTTP 500, not the 503 required by the
spec (the endpoint's own 503 branch is unreachable). -/
theorem workers_status_unreachable_is_500 :
    get_workers_status_endpoint false = 500
      ∧ get_workers_status_endpoint false ≠ 503 :=
  ⟨rfl, by decide⟩

/-- Coordinator-owned state touched by the load-index endpoint. -/
structure CoordState : Type where
  global_inverted_index : GIndex
  dispatched_docs_pending_results : List String
deriving DecidableEq, Repr

/-- The possible outcomes of reading the checkpoint file in
`load_global_index_from_file` (main.py lines 64-83): missing file, gzip
error, JSON error (all logged and turned into an empty index), or a
parsed JSON document whose optional `index` key carries the stored
index (`data.get('index', {})`). -/
inductive CheckpointFile : Type where
  | missing
  | badGzip
  | badJson
  | parsed (indexKey : Option GIndex)
deriving DecidableEq, Repr

/-- `load_global_index_from_file` (main.py lines 64-83). -/
def load_global_index_from_file : CheckpointFile → GIndex
  | .missing => []
  | .badGzip => []
  | .badJson => []
  | .parsed none => []
  | .parsed (some idx) => idx

/-- `load_index_endpoint` (main.py lines 247-256): read the checkpoint,
then under the mutex replace the whole global index with the loaded
contents and `clear()` the pending set. -/
def load_index_endpoint (_st : CoordState) (file : CheckpointFile) : CoordState :=
  { global_inverted_index := load_global_index_from_file file,
    dispatched_docs_pending_results := [] }

/-- C10: after every load-index call the pending set is empty — any doc
id that was pending (results still in flight included) is gone — and the
global index is exactly the loaded checkpoint contents. -/
theorem load_index_clears_pending (st : CoordState) (file : CheckpointFile)
    (d : String) (_hd : d ∈ st.dispatched_docs_pending_results) :
    (load_index_endpoint st file).dispatched_docs_pending_results = []
      ∧ d ∉ (load_index_endpoint st file).dispatched_docs_pending_results
      ∧ (load_index_endpoint st file).global_inverted_index
          = load_global_index_from_file file :=
  ⟨rfl, by simp [load_index_endpoint], rfl⟩

theorem load_index_clears_pending_witness :
    ("d1.txt" ∈ (CoordState.mk [("cat", [("d0.txt", 1)])] ["d1.txt"]).dispatched_docs_pending_results
      ∧ (load_index_endpoint (CoordState.mk [("cat", [("d0.txt", 1)])] ["d1.txt"])
          CheckpointFile.missing).dispatched_docs_pending_results = []
      ∧ "d1.txt" ∉ (load_index_endpoint (CoordState.mk [("cat", [("d0.txt", 1)])] ["d1.txt"])
          CheckpointFile.missing).dispatched_docs_pending_results
      ∧ (load_index_endpoint (CoordState.mk [("cat", [("d0.txt", 1)])] ["d1.txt"])
          CheckpointFile.missing).global_inverted_index
          = load_global_index_from_file CheckpointFile.missing) :=
  ⟨by decide, load_index_clears_pending (CoordState.mk [("cat", [("d0.txt", 1)])] ["d1.txt"])
    CheckpointFile.missing "d1.txt" (by decide)⟩

end KeySearch
